import Mathlib

/-!
Shallow embedding of the Go+ tutorial web server (`main.go`).

Go strings and byte slices are modelled as `List Char` (`Str`), with the
`strings`-package helpers the source uses re-implemented as structural
recursions so that every definition evaluates inside the kernel.  The
embedding covers the literate-source segmenter (`checkLineType`,
`parseSegs`), the segment renderer (`parseAndRenderSegs`, with the external
markdown and syntax-highlighting engines abstracted as parameters), the
custom joiner (`stringJoin`), the catalog builder of `renderIndex`
(descriptor pointers modelled as indices into the catalog list), and the
per-example cache step of `handleExample` (the atomic load/publish pair
modelled as a sequential state transition, with the filesystem- and
template-dependent page build abstracted as an `Except` parameter).
-/

/-- Go strings / byte slices, modelled as lists of characters. -/
abbrev Str : Type := List Char

/-- Coerce a Lean string literal into the `Str` model. -/
def str (s : String) : Str := s.data

/-- The Latin-1 part of Go's `unicode.IsSpace` (space, tab, newline,
vertical tab, form feed, carriage return, NEL, NBSP).  The astral Unicode
space classes never occur in the inputs the claims are about. -/
def isSpace (c : Char) : Bool :=
  c = ' ' || c = '\t' || c = '\n' || c = Char.ofNat 11 || c = Char.ofNat 12 ||
  c = '\r' || c = Char.ofNat 133 || c = Char.ofNat 160

/-- Drop leading space characters. -/
def strTrimLeft : Str → Str
  | [] => []
  | c :: cs => if isSpace c then strTrimLeft cs else c :: cs

/-- Go `strings.TrimSpace`: drop leading and trailing space characters. -/
def strTrimSpace (s : Str) : Str :=
  (strTrimLeft (strTrimLeft s).reverse).reverse

/-- Go `strings.HasPrefix`. -/
def strStartsWith : Str → Str → Bool
  | _, [] => true
  | [], _ :: _ => false
  | c :: cs, p :: ps => c = p && strStartsWith cs ps

/-- Go `strings.HasSuffix`. -/
def strEndsWith (s post : Str) : Bool :=
  strStartsWith s.reverse post.reverse

/-- Go `strings.ToLower`, restricted to ASCII letters (the catalog names
the source handles are ASCII). -/
def strToLower (s : Str) : Str :=
  s.map (fun c => if 'A' ≤ c ∧ c ≤ 'Z' then Char.ofNat (c.toNat + 32) else c)

/-- Go `strings.ReplaceAll` with a one-character pattern and a
one-character replacement. -/
def replaceCharAll (s : Str) (pat rep : Char) : Str :=
  s.map (fun c => if c = pat then rep else c)

/-- Go `strings.ReplaceAll(line, "\t", "    ")`: each tab becomes four
spaces. -/
def replaceTabs : Str → Str
  | [] => []
  | c :: cs =>
    if c = '\t' then ' ' :: ' ' :: ' ' :: ' ' :: replaceTabs cs
    else c :: replaceTabs cs

/-- Go `strings.Split(s, "\n")`: split on newline characters, keeping
empty fields (splitting the empty string yields one empty field). -/
def splitLines : Str → List Str
  | [] => [[]]
  | c :: cs =>
    if c = '\n' then [] :: splitLines cs
    else
      match splitLines cs with
      | l :: ls => (c :: l) :: ls
      | [] => [[c]]

/-- `Seg` is a segment of an example (struct `Seg` in `main.go`). -/
structure Seg where
  Docs : List Str := []
  Code : List Str := []
  DocsRendered : Str := []
  CodeRendered : Str := []
  CodeForJs : Str := []
  CodeLeading : Bool := false
  CodeRun : Bool := false
deriving DecidableEq

/-- `goFileSuffixes` from `main.go`. -/
def goFileSuffixes : List Str := [str ".gop", str ".go"]

/-- `isGopFile` from `main.go`: true when the path ends in one of
`goFileSuffixes`. -/
def isGopFile (sourcePath : Str) : Bool :=
  goFileSuffixes.any (fun suffix => strEndsWith sourcePath suffix)

/-- Line-type constant `ltNone` from `main.go`. -/
def ltNone : Int := -1

/-- Line-type constant `ltCode` from `main.go`. -/
def ltCode : Int := 0

/-- Line-type constant `ltDoc` from `main.go`. -/
def ltDoc : Int := 1

/-- Line-type constant `ltBlank` from `main.go`. -/
def ltBlank : Int := 2

/-- `checkLineType` from `main.go`: trim the line; a `//` line is doc text
with the marker and one following space stripped; a `#` line is doc text
with `"##"` prepended; an empty trimmed line is blank; otherwise code
(`ltCode` is the Go zero value of `lt`). -/
def checkLineType (line : Str) : Str × Int :=
  let doc := strTrimSpace line
  if strStartsWith doc (str "//") then
    (let s := doc.drop 2
     if strStartsWith s (str " ") then s.drop 1 else s, ltDoc)
  else if strStartsWith doc (str "#") then
    (str "##" ++ doc, ltDoc)
  else if doc = [] then
    (doc, ltBlank)
  else
    (doc, ltCode)

/-- One iteration of the grouping loop of `parseSegs`.  The state is the
list of segments in reverse order (the head is Go's `lastSeg`, which the
loop mutates in place) together with `lastSeen`.  The `[]` case under
`lastSeen = ltDoc` is unreachable from the initial state (Go would
nil-dereference there). -/
def segStep (st : List Seg × Int) (line : Str) : List Seg × Int :=
  let r := checkLineType line
  if r.2 = ltDoc ∨ (r.2 = ltBlank ∧ st.2 = ltDoc) then
    match st.1 with
    | s :: rest =>
      if st.2 = ltDoc then
        ({ s with Docs := s.Docs ++ [r.1] } :: rest, ltDoc)
      else
        ({ Docs := [r.1] } :: (s :: rest), ltDoc)
    | [] => ([{ Docs := [r.1] }], ltDoc)
  else if r.2 = ltCode ∨ st.2 = ltCode then
    match st.1 with
    | s :: rest => ({ s with Code := s.Code ++ [line] } :: rest, ltCode)
    | [] => ([{ Code := [line] }], ltCode)
  else
    st

/-- The grouping loop of `parseSegs` run over an already tab-normalized
line sequence, starting from no segment and `lastSeen = ltNone`. -/
def parseSegLines (lines : List Str) : List Seg :=
  (lines.foldl segStep ([], ltNone)).1.reverse

/-- `parseSegs` from `main.go`: split the file content on newlines,
normalize tabs to four spaces, and run the grouping loop. -/
def parseSegs (filecontent : Str) : List Seg :=
  parseSegLines ((splitLines filecontent).map replaceTabs)

/-- `stringJoin` from `main.go`: the hand-rolled join (its `bytes.Buffer`
accumulation is the left fold; the `Grow` call is a capacity hint with no
observable effect on the produced bytes). -/
def stringJoin (elems : List Str) (sep : Str) : Str :=
  match elems with
  | [] => []
  | [e] => e
  | e :: rest => rest.foldl (fun b s => b ++ sep ++ s) e

/-- Reference model of the Go standard library `strings.Join`: the
elements of `elems` concatenated with `sep` placed between consecutive
elements. -/
def stringsJoin (elems : List Str) (sep : Str) : Str :=
  List.intercalate sep elems

/-- `parseAndRenderSegs` from `main.go`.  The external markdown renderer
(`markdown`/blackfriday) and syntax highlighter (`chromaFormat`/chroma)
are out-of-scope collaborators and enter as the function parameters
`renderDoc` and `renderCode`; reading the file from disk is replaced by
passing `filecontent` directly. -/
def parseAndRenderSegs (renderDoc : List Str → Str) (renderCode : Str → Str → Str)
    (sourcePath : Str) (filecontent : Str) : List Seg × Str :=
  let segs := (parseSegs filecontent).map (fun seg =>
    let seg1 := if seg.Docs ≠ [] then { seg with DocsRendered := renderDoc seg.Docs } else seg
    if seg1.Code ≠ [] then
      { seg1 with
          CodeForJs := stringsJoin seg1.Code (str "\n"),
          CodeRendered := renderCode (stringsJoin seg1.Code (str "\n")) sourcePath }
    else seg1)
  (segs, if isGopFile sourcePath then filecontent else [])

/-- `exampleIndex` from `main.go`.  The Go `Prev`/`Next` pointers into the
catalog array are modelled as optional indices into the catalog list; the
unexported `cache` pointer is carried separately by `handleExample`. -/
structure exampleIndex where
  Path : Str
  Name : Str
  Title : Str
  Prev : Option Nat := Option.none
  Next : Option Nat := Option.none
deriving DecidableEq

/-- The descriptor `renderIndex` creates for directory `name` before the
linking step: `title := name[3:]`, `Path := "/" + ToLower(title)`,
`Title := ReplaceAll(title, "-", " ")`. -/
def mkExampleIndex (name : Str) (prev : Option Nat) : exampleIndex :=
  { Path := str "/" ++ strToLower (name.drop 3)
    Name := name
    Title := replaceCharAll (name.drop 3) '-' ' '
    Prev := prev
    Next := Option.none }

/-- One iteration of the catalog loop of `renderIndex`.  The accumulator
is the catalog so far in reverse order, so its head is Go's `prev`
pointer (which sits at index `rest.length`), and the entry being added
gets index `rest.length + 1`; `prev.Next = idx` is the head update. -/
def renderIndexStep (acc : List exampleIndex) (name : Str) : List exampleIndex :=
  match acc with
  | [] => [mkExampleIndex name Option.none]
  | prev :: rest =>
    mkExampleIndex name (Option.some rest.length) ::
      { prev with Next := Option.some (rest.length + 1) } :: rest

/-- The catalog-building loop of `renderIndex` from `main.go` (template
execution and the path-keyed lookup map are external to the claims). -/
def renderIndex (tutorial : List Str) : List exampleIndex :=
  (tutorial.foldl renderIndexStep []).reverse

/-- One request served by `handleExample` from `main.go` for a descriptor
whose cache entry is `cache` (`Option.none` is Go's nil `*exampleCache`,
i.e. unbuilt).  The `buildExampleCache` call reads the filesystem and runs
the template engine, so its outcome enters as the `build` parameter; a Go
`check` panic during the build is the `Except.error` case, which aborts
the request before the `atomic.StorePointer` publish.  The result is the
payload written to the client (or the error) together with the cache
entry after the request. -/
def handleExample (build : Except Str Str) (cache : Option Str) :
    Except Str Str × Option Str :=
  match cache with
  | Option.some d => (Except.ok d, Option.some d)
  | Option.none =>
    match build with
    | Except.ok d => (Except.ok d, Option.some d)
    | Except.error e => (Except.error e, Option.none)

/-- The catalog entry that sits at position `k` after `renderIndex`
finishes: its `Prev` points at `k - 1` (absent for the first entry) and
its `Next` is as given. -/
def entryAt (k : Nat) (name : Str) (nxt : Option Nat) : exampleIndex :=
  { mkExampleIndex name (if k = 0 then Option.none else Option.some (k - 1)) with
      Next := nxt }

/-- Closed form of the catalog produced by `renderIndex` starting at
position `k`: consecutive entries linked both ways, the last one with no
successor. -/
def chainEntries (k : Nat) : List Str → List exampleIndex
  | [] => []
  | [name] => [entryAt k name Option.none]
  | name :: next :: rest =>
    entryAt k name (Option.some (k + 1)) :: chainEntries (k + 1) (next :: rest)

theorem ltCode_ne_ltDoc : ltCode ≠ ltDoc := by decide
theorem ltBlank_ne_ltCode : ltBlank ≠ ltCode := by decide

theorem checkLineType_blank_content (line : Str)
    (h : (checkLineType line).2 = ltBlank) : (checkLineType line).1 = [] := by
  unfold checkLineType at h ⊢
  dsimp only at h ⊢
  split_ifs at h ⊢
  all_goals simp_all [ltDoc, ltBlank, ltCode]
theorem ltCode_ne_ltBlank : ltCode ≠ ltBlank := by decide
theorem ltBlank_ne_ltDoc : ltBlank ≠ ltDoc := by decide

theorem segStep_doc_cont (line : Str) (s : Seg) (rest : List Seg)
    (h : (checkLineType line).2 = ltDoc) :
    segStep (s :: rest, ltDoc) line =
      ({ s with Docs := s.Docs ++ [(checkLineType line).1] } :: rest, ltDoc) := by
  simp [segStep, h]

theorem segStep_doc_push (line : Str) (segs : List Seg) (last : Int)
    (h : (checkLineType line).2 = ltDoc) (hlast : last ≠ ltDoc) :
    segStep (segs, last) line =
      ({ Docs := [(checkLineType line).1] } :: segs, ltDoc) := by
  cases segs with
  | nil => simp [segStep, h]
  | cons s rest => simp [segStep, h, hlast]

theorem segStep_blank_cont (line : Str) (s : Seg) (rest : List Seg)
    (h : (checkLineType line).2 = ltBlank) :
    segStep (s :: rest, ltDoc) line =
      ({ s with Docs := s.Docs ++ [[]] } :: rest, ltDoc) := by
  simp [segStep, h, ltBlank_ne_ltDoc, checkLineType_blank_content line h]

theorem segStep_code_cons (line : Str) (s : Seg) (rest : List Seg) (last : Int)
    (h : (checkLineType line).2 = ltCode) :
    segStep (s :: rest, last) line =
      ({ s with Code := s.Code ++ [line] } :: rest, ltCode) := by
  simp [segStep, h, ltCode_ne_ltDoc, ltCode_ne_ltBlank]

theorem segStep_code_nil (line : Str) (last : Int)
    (h : (checkLineType line).2 = ltCode) :
    segStep (([] : List Seg), last) line = ([{ Code := [line] }], ltCode) := by
  simp [segStep, h, ltCode_ne_ltDoc, ltCode_ne_ltBlank]

theorem segStep_blank_code (line : Str) (s : Seg) (rest : List Seg)
    (h : (checkLineType line).2 = ltBlank) :
    segStep (s :: rest, ltCode) line =
      ({ s with Code := s.Code ++ [line] } :: rest, ltCode) := by
  simp [segStep, h, ltBlank_ne_ltDoc, ltCode_ne_ltDoc]

theorem segStep_blank_skip (line : Str) (segs : List Seg) (last : Int)
    (h : (checkLineType line).2 = ltBlank)
    (h1 : last ≠ ltDoc) (h2 : last ≠ ltCode) :
    segStep (segs, last) line = (segs, last) := by
  cases segs with
  | nil => simp [segStep, h, ltBlank_ne_ltDoc, h1, h2, ltBlank_ne_ltCode]
  | cons s rest => simp [segStep, h, ltBlank_ne_ltDoc, h1, h2, ltBlank_ne_ltCode]

theorem segStep_shape (segs : List Seg) (last : Int) (line : Str) :
    segStep (segs, last) line = (segs, last) ∨
    (∃ s, (segStep (segs, last) line).1 = s :: segs ∧ s.CodeForJs = []) ∨
    (∃ s rest s', segs = s :: rest ∧ (segStep (segs, last) line).1 = s' :: rest ∧
      s.Docs <+: s'.Docs ∧ s.Code <+: s'.Code ∧ s'.CodeForJs = s.CodeForJs) := by
  cases segs with
  | nil =>
    unfold segStep
    dsimp only
    split_ifs with h1 h2
    · right; left; exact ⟨_, rfl, rfl⟩
    · right; left; exact ⟨_, rfl, rfl⟩
    · left; rfl
  | cons s rest =>
    unfold segStep
    dsimp only
    split_ifs with h1 h2 h3
    · right; right
      exact ⟨s, rest, _, rfl, rfl, List.prefix_append _ _, List.prefix_rfl, rfl⟩
    · right; left; exact ⟨_, rfl, rfl⟩
    · right; right
      exact ⟨s, rest, _, rfl, rfl, List.prefix_rfl, List.prefix_append _ _, rfl⟩
    · left; rfl

theorem segStep_docs_carry (st : List Seg × Int) (line : Str) (l : List Str)
    (h : ∃ seg ∈ st.1, l <:+: seg.Docs) :
    ∃ seg ∈ (segStep st line).1, l <:+: seg.Docs := by
  obtain ⟨seg, hmem, hinf⟩ := h
  rcases st with ⟨segs, last⟩
  rcases segStep_shape segs last line with heq | ⟨s, hpush, _⟩ | ⟨s, rest, s', hsegs, hres, hd, _, _⟩
  · rw [heq]; exact ⟨seg, hmem, hinf⟩
  · rw [hpush]; exact ⟨seg, List.mem_cons_of_mem _ hmem, hinf⟩
  · subst hsegs
    rw [hres]
    rcases List.mem_cons.mp hmem with rfl | hm
    · exact ⟨s', List.mem_cons_self _ _, hinf.trans hd.isInfix⟩
    · exact ⟨seg, List.mem_cons_of_mem _ hm, hinf⟩

theorem segStep_code_carry (st : List Seg × Int) (line : Str) (l : List Str)
    (h : ∃ seg ∈ st.1, l <:+: seg.Code) :
    ∃ seg ∈ (segStep st line).1, l <:+: seg.Code := by
  obtain ⟨seg, hmem, hinf⟩ := h
  rcases st with ⟨segs, last⟩
  rcases segStep_shape segs last line with heq | ⟨s, hpush, _⟩ | ⟨s, rest, s', hsegs, hres, _, hc, _⟩
  · rw [heq]; exact ⟨seg, hmem, hinf⟩
  · rw [hpush]; exact ⟨seg, List.mem_cons_of_mem _ hmem, hinf⟩
  · subst hsegs
    rw [hres]
    rcases List.mem_cons.mp hmem with rfl | hm
    · exact ⟨s', List.mem_cons_self _ _, hinf.trans hc.isInfix⟩
    · exact ⟨seg, List.mem_cons_of_mem _ hm, hinf⟩

theorem foldl_segStep_docs_carry (lines : List Str) (st : List Seg × Int) (l : List Str)
    (h : ∃ seg ∈ st.1, l <:+: seg.Docs) :
    ∃ seg ∈ (lines.foldl segStep st).1, l <:+: seg.Docs := by
  induction lines generalizing st with
  | nil => exact h
  | cons line lines ih => exact ih _ (segStep_docs_carry st line l h)

theorem foldl_segStep_code_carry (lines : List Str) (st : List Seg × Int) (l : List Str)
    (h : ∃ seg ∈ st.1, l <:+: seg.Code) :
    ∃ seg ∈ (lines.foldl segStep st).1, l <:+: seg.Code := by
  induction lines generalizing st with
  | nil => exact h
  | cons line lines ih => exact ih _ (segStep_code_carry st line l h)

theorem segStep_codeForJs (st : List Seg × Int) (line : Str)
    (h : ∀ seg ∈ st.1, seg.CodeForJs = []) :
    ∀ seg ∈ (segStep st line).1, seg.CodeForJs = [] := by
  rcases st with ⟨segs, last⟩
  rcases segStep_shape segs last line with heq | ⟨s, hpush, hjs⟩ | ⟨s, rest, s', hsegs, hres, _, _, hjs⟩
  · rw [heq]; exact h
  · rw [hpush]
    intro seg hm
    rcases List.mem_cons.mp hm with rfl | hm
    · exact hjs
    · exact h seg hm
  · subst hsegs
    rw [hres]
    intro seg hm
    rcases List.mem_cons.mp hm with rfl | hm
    · rw [hjs]; exact h s (List.mem_cons_self _ _)
    · exact h seg (List.mem_cons_of_mem _ hm)

theorem parseSegLines_codeForJs (lines : List Str) :
    ∀ seg ∈ parseSegLines lines, seg.CodeForJs = [] := by
  unfold parseSegLines
  intro seg hm
  rw [List.mem_reverse] at hm
  revert seg hm
  have : ∀ (ls : List Str) (st : List Seg × Int),
      (∀ seg ∈ st.1, seg.CodeForJs = []) →
      ∀ seg ∈ (ls.foldl segStep st).1, seg.CodeForJs = [] := by
    intro ls
    induction ls with
    | nil => intro st h; exact h
    | cons line lines ih => intro st h; exact ih _ (segStep_codeForJs st line h)
  intro seg hm
  exact this lines ([], ltNone) (by intro seg hm; cases hm) seg hm

theorem parseSegs_codeForJs (filecontent : Str) :
    ∀ seg ∈ parseSegs filecontent, seg.CodeForJs = [] := by
  unfold parseSegs
  exact parseSegLines_codeForJs _

theorem segStep_doc_nil (line : Str) (last : Int)
    (h : (checkLineType line).2 = ltDoc) :
    segStep (([] : List Seg), last) line =
      ([{ Docs := [(checkLineType line).1] }], ltDoc) := by
  simp [segStep, h]

theorem segStep_doc_general (line : Str) (segs : List Seg) (last : Int)
    (h : (checkLineType line).2 = ltDoc) :
    ∃ s rest X, segStep (segs, last) line = (s :: rest, ltDoc) ∧
      s.Docs = X ++ [(checkLineType line).1] := by
  by_cases hl : last = ltDoc
  · subst hl
    cases segs with
    | nil => exact ⟨_, _, [], segStep_doc_nil line ltDoc h, rfl⟩
    | cons s rest => exact ⟨_, _, s.Docs, segStep_doc_cont line s rest h, rfl⟩
  · cases segs with
    | nil => exact ⟨_, _, [], segStep_doc_nil line last h, rfl⟩
    | cons s rest => exact ⟨_, _, [], segStep_doc_push line (s :: rest) last h hl, rfl⟩

theorem segStep_code_general (line : Str) (segs : List Seg) (last : Int)
    (h : (checkLineType line).2 = ltCode) :
    ∃ s rest X, segStep (segs, last) line = (s :: rest, ltCode) ∧
      s.Code = X ++ [line] := by
  cases segs with
  | nil => exact ⟨_, _, [], segStep_code_nil line last h, rfl⟩
  | cons s rest => exact ⟨_, _, s.Code, segStep_code_cons line s rest last h, rfl⟩

theorem doc_blank_doc_step (d b d' : Str) (segs : List Seg) (last : Int)
    (hd : (checkLineType d).2 = ltDoc) (hb : (checkLineType b).2 = ltBlank)
    (hd' : (checkLineType d').2 = ltDoc) :
    ∃ s rest, segStep (segStep (segStep (segs, last) d) b) d' = (s :: rest, ltDoc) ∧
      [(checkLineType d).1, [], (checkLineType d').1] <:+ s.Docs := by
  obtain ⟨s1, r1, X, h1, hDocs⟩ := segStep_doc_general d segs last hd
  rw [h1, segStep_blank_cont b s1 r1 hb, segStep_doc_cont d' _ r1 hd']
  refine ⟨_, r1, rfl, ?_⟩
  dsimp
  rw [hDocs]
  have heq : ((X ++ [(checkLineType d).1]) ++ [([] : Str)]) ++ [(checkLineType d').1] =
      X ++ [(checkLineType d).1, [], (checkLineType d').1] := by simp
  rw [heq]
  exact List.suffix_append _ _

theorem code_blank_code_step (c b c' : Str) (segs : List Seg) (last : Int)
    (hc : (checkLineType c).2 = ltCode) (hb : (checkLineType b).2 = ltBlank)
    (hc' : (checkLineType c').2 = ltCode) :
    ∃ s rest, segStep (segStep (segStep (segs, last) c) b) c' = (s :: rest, ltCode) ∧
      [c, b, c'] <:+ s.Code := by
  obtain ⟨s1, r1, X, h1, hCode⟩ := segStep_code_general c segs last hc
  rw [h1, segStep_blank_code b s1 r1 hb, segStep_code_cons c' _ r1 ltCode hc']
  refine ⟨_, r1, rfl, ?_⟩
  dsimp
  rw [hCode]
  have heq : ((X ++ [c]) ++ [b]) ++ [c'] = X ++ [c, b, c'] := by simp
  rw [heq]
  exact List.suffix_append _ _

theorem foldl_blank_init (pre : List Str)
    (h : ∀ l ∈ pre, (checkLineType l).2 = ltBlank) :
    pre.foldl segStep ([], ltNone) = ([], ltNone) := by
  induction pre with
  | nil => rfl
  | cons l pre ih =>
    rw [List.foldl_cons,
      segStep_blank_skip l [] ltNone (h l (List.mem_cons_self _ _)) (by decide) (by decide)]
    exact ih (fun l hl => h l (List.mem_cons_of_mem _ hl))

theorem parseSegLines_append_blanks (pre rest : List Str)
    (h : ∀ l ∈ pre, (checkLineType l).2 = ltBlank) :
    parseSegLines (pre ++ rest) = parseSegLines rest := by
  unfold parseSegLines
  rw [List.foldl_append, foldl_blank_init pre h]

theorem foldl_doc_run_cont (ds : List Str) (s : Seg) (rest : List Seg)
    (h : ∀ l ∈ ds, (checkLineType l).2 = ltDoc) :
    ds.foldl segStep (s :: rest, ltDoc) =
      ({ s with Docs := s.Docs ++ ds.map (fun l => (checkLineType l).1) } :: rest, ltDoc) := by
  induction ds generalizing s with
  | nil => simp
  | cons d ds ih =>
    rw [List.foldl_cons, segStep_doc_cont d s rest (h d (List.mem_cons_self _ _)),
      ih _ (fun l hl => h l (List.mem_cons_of_mem _ hl))]
    simp

theorem foldl_doc_run_new (ds : List Str) (segs : List Seg) (last : Int)
    (hne : ds ≠ []) (hlast : last ≠ ltDoc)
    (h : ∀ l ∈ ds, (checkLineType l).2 = ltDoc) :
    ds.foldl segStep (segs, last) =
      ({ Docs := ds.map (fun l => (checkLineType l).1) } :: segs, ltDoc) := by
  cases ds with
  | nil => exact absurd rfl hne
  | cons d ds =>
    cases segs with
    | nil =>
      rw [List.foldl_cons, segStep_doc_nil d last (h d (List.mem_cons_self _ _)),
        foldl_doc_run_cont ds _ _ (fun l hl => h l (List.mem_cons_of_mem _ hl))]
      simp
    | cons s rest =>
      rw [List.foldl_cons, segStep_doc_push d (s :: rest) last (h d (List.mem_cons_self _ _)) hlast,
        foldl_doc_run_cont ds _ _ (fun l hl => h l (List.mem_cons_of_mem _ hl))]
      simp

theorem foldl_code_run_cont (cs : List Str) (c : Str) (s : Seg) (rest : List Seg) (last : Int)
    (h : ∀ l ∈ c :: cs, (checkLineType l).2 = ltCode) :
    (c :: cs).foldl segStep (s :: rest, last) =
      ({ s with Code := s.Code ++ (c :: cs) } :: rest, ltCode) := by
  induction cs generalizing c s last with
  | nil =>
    rw [List.foldl_cons, segStep_code_cons c s rest last (h c (List.mem_cons_self _ _))]
    rfl
  | cons c2 cs ih =>
    rw [List.foldl_cons, segStep_code_cons c s rest last (h c (List.mem_cons_self _ _)),
      ih c2 _ ltCode (fun l hl => h l (List.mem_cons_of_mem _ hl))]
    simp

theorem foldl_code_run_nil (cs : List Str) (c : Str) (last : Int)
    (h : ∀ l ∈ c :: cs, (checkLineType l).2 = ltCode) :
    (c :: cs).foldl segStep ([], last) = ([{ Code := c :: cs }], ltCode) := by
  cases cs with
  | nil =>
    rw [List.foldl_cons, segStep_code_nil c last (h c (List.mem_cons_self _ _))]
    rfl
  | cons c2 cs =>
    rw [List.foldl_cons, segStep_code_nil c last (h c (List.mem_cons_self _ _)),
      foldl_code_run_cont cs c2 _ _ ltCode (fun l hl => h l (List.mem_cons_of_mem _ hl))]
    rfl

/-- C1 (counterexample): on the spec's example input the segmenter does
not return the claimed value — the first segment's doc-lines are not
`["Title", "more"]`, because the blank between the two comment lines is
kept as an empty doc entry. -/
theorem parseSegs_example_ne_claimed :
    parseSegLines [str "// Title", str "", str "// more", str "x := 1",
        str "", str "y := 2", str "// next doc", str "z := 3"] ≠
      [{ Docs := [str "Title", str "more"],
         Code := [str "x := 1", str "", str "y := 2"] },
       { Docs := [str "next doc"], Code := [str "z := 3"] }] := by decide

/-- C1 (amended): the example input segments into two segments whose
first has doc-lines `["Title", "", "more"]`. -/
theorem parseSegs_example_scenario :
    parseSegs (str "// Title\n\n// more\nx := 1\n\ny := 2\n// next doc\nz := 3") =
      [{ Docs := [str "Title", str "", str "more"],
         Code := [str "x := 1", str "", str "y := 2"] },
       { Docs := [str "next doc"], Code := [str "z := 3"] }] ∧
    parseSegLines [str "// Title", str "", str "// more", str "x := 1",
        str "", str "y := 2", str "// next doc", str "z := 3"] =
      [{ Docs := [str "Title", str "", str "more"],
         Code := [str "x := 1", str "", str "y := 2"] },
       { Docs := [str "next doc"], Code := [str "z := 3"] }] := by
  exact ⟨by decide, by decide⟩

/-- C2 (counterexample): the whitespace-only blank line `" "` between two
code lines is preserved as the line itself, not as an empty code entry —
no segment of the result contains an empty entry at all. -/
theorem blank_between_code_not_empty_entry :
    parseSegLines [str "x := 1", str " ", str "y := 2"] =
      [{ Code := [str "x := 1", str " ", str "y := 2"] }] ∧
    ∀ seg ∈ parseSegLines [str "x := 1", str " ", str "y := 2"],
      ([] : Str) ∉ seg.Code ∧ ([] : Str) ∉ seg.Docs := by decide

/-- C2 (amended): a blank line between two doc lines is preserved as an
empty doc entry of the same segment; a blank line between two code lines
is preserved as a code entry equal to the (tab-normalized) line itself —
empty exactly when the line has no characters; blank lines before any doc
or code content are dropped and appear in no segment. -/
theorem blank_line_policy :
    (∀ pre post d b d',
      (checkLineType d).2 = ltDoc → (checkLineType b).2 = ltBlank →
      (checkLineType d').2 = ltDoc →
      ∃ seg ∈ parseSegLines (pre ++ d :: b :: d' :: post),
        [(checkLineType d).1, [], (checkLineType d').1] <:+: seg.Docs) ∧
    (∀ pre post c b c',
      (checkLineType c).2 = ltCode → (checkLineType b).2 = ltBlank →
      (checkLineType c').2 = ltCode →
      ∃ seg ∈ parseSegLines (pre ++ c :: b :: c' :: post),
        [c, b, c'] <:+: seg.Code) ∧
    (∀ pre rest, (∀ l ∈ pre, (checkLineType l).2 = ltBlank) →
      parseSegLines (pre ++ rest) = parseSegLines rest) := by
  refine ⟨?_, ?_, ?_⟩
  · intro pre post d b d' hd hb hd'
    unfold parseSegLines
    rw [List.foldl_append, List.foldl_cons, List.foldl_cons, List.foldl_cons]
    cases hst : pre.foldl segStep ([], ltNone) with
    | mk segs0 last0 =>
      obtain ⟨s, rest, hstep, hsuf⟩ := doc_blank_doc_step d b d' segs0 last0 hd hb hd'
      rw [hstep]
      obtain ⟨seg, hm, hi⟩ := foldl_segStep_docs_carry post (s :: rest, ltDoc) _
        ⟨s, List.mem_cons_self _ _, hsuf.isInfix⟩
      exact ⟨seg, List.mem_reverse.mpr hm, hi⟩
  · intro pre post c b c' hc hb hc'
    unfold parseSegLines
    rw [List.foldl_append, List.foldl_cons, List.foldl_cons, List.foldl_cons]
    cases hst : pre.foldl segStep ([], ltNone) with
    | mk segs0 last0 =>
      obtain ⟨s, rest, hstep, hsuf⟩ := code_blank_code_step c b c' segs0 last0 hc hb hc'
      rw [hstep]
      obtain ⟨seg, hm, hi⟩ := foldl_segStep_code_carry post (s :: rest, ltCode) _
        ⟨s, List.mem_cons_self _ _, hsuf.isInfix⟩
      exact ⟨seg, List.mem_reverse.mpr hm, hi⟩
  · exact parseSegLines_append_blanks

/-- Witness for `blank_line_policy` at concrete inputs. -/
theorem blank_line_policy_witness :
    (∃ seg ∈ parseSegLines [str "// a", str "", str "// b"],
      [str "a", ([] : Str), str "b"] <:+: seg.Docs) ∧
    (∃ seg ∈ parseSegLines [str "x", str "", str "y"],
      [str "x", ([] : Str), str "y"] <:+: seg.Code) ∧
    parseSegLines [str "", str "x"] = parseSegLines [str "x"] :=
  ⟨blank_line_policy.1 [] [] (str "// a") (str "") (str "// b")
      (by decide) (by decide) (by decide),
   blank_line_policy.2.1 [] [] (str "x") (str "") (str "y")
      (by decide) (by decide) (by decide),
   blank_line_policy.2.2 [str ""] [str "x"] (by decide)⟩

/-- C3 (confirmed): an input consisting of a nonempty run of doc lines
followed by a nonempty run of code lines produces exactly one segment
holding both; in the opposite order it produces two segments, the doc run
opening a fresh one. -/
theorem doc_code_merge_split (ds cs : List Str)
    (hd : ds ≠ []) (hc : cs ≠ [])
    (hds : ∀ l ∈ ds, (checkLineType l).2 = ltDoc)
    (hcs : ∀ l ∈ cs, (checkLineType l).2 = ltCode) :
    parseSegLines (ds ++ cs) =
      [{ Docs := ds.map (fun l => (checkLineType l).1), Code := cs }] ∧
    parseSegLines (cs ++ ds) =
      [{ Code := cs }, { Docs := ds.map (fun l => (checkLineType l).1) }] := by
  constructor
  · unfold parseSegLines
    rw [List.foldl_append, foldl_doc_run_new ds [] ltNone hd (by decide) hds]
    cases cs with
    | nil => exact absurd rfl hc
    | cons c cs' =>
      rw [foldl_code_run_cont cs' c _ _ ltDoc hcs]
      simp
  · unfold parseSegLines
    rw [List.foldl_append]
    cases cs with
    | nil => exact absurd rfl hc
    | cons c cs' =>
      rw [foldl_code_run_nil cs' c ltNone hcs,
        foldl_doc_run_new ds _ ltCode hd (by decide) hds]
      rfl

/-- Witness for `doc_code_merge_split` at concrete inputs. -/
theorem doc_code_merge_split_witness :
    parseSegLines [str "// a", str "x"] =
      [{ Docs := [str "a"], Code := [str "x"] }] ∧
    parseSegLines [str "x", str "// a"] =
      [{ Code := [str "x"] }, { Docs := [str "a"] }] :=
  doc_code_merge_split [str "// a"] [str "x"] (by decide) (by decide)
    (by decide) (by decide)

/-- C4 (counterexample): classifying `"# Title"` yields `"### Title"` —
the code prepends the two-marker string `"##"`, demoting the heading by
two levels, not by one. -/
theorem heading_demote_counterexample :
    checkLineType (str "# Title") = (str "### Title", ltDoc) ∧
    (checkLineType (str "# Title")).1 ≠ str "## Title" := by decide

/-- C4 (amended): a line whose trimmed text starts with a heading marker
(and not with the comment marker) classifies as doc with the two-marker
string `"##"` prepended to the trimmed text, demoting the heading level
by exactly two. -/
theorem heading_demote (line : Str)
    (h1 : strStartsWith (strTrimSpace line) (str "//") = false)
    (h2 : strStartsWith (strTrimSpace line) (str "#") = true) :
    checkLineType line = (str "##" ++ strTrimSpace line, ltDoc) := by
  unfold checkLineType
  dsimp only
  rw [h1, h2]
  rfl

/-- Witness for `heading_demote` at the concrete line `"# Intro"`. -/
theorem heading_demote_witness :
    checkLineType (str "# Intro") = (str "### Intro", ltDoc) :=
  heading_demote (str "# Intro") (by decide) (by decide)

theorem intercalate_cons₂ (sep x y : Str) (l : List Str) :
    List.intercalate sep (x :: y :: l) = x ++ sep ++ List.intercalate sep (y :: l) := by
  simp [List.intercalate, List.intersperse]

theorem foldl_sep_intercalate (sep : Str) :
    ∀ (rest : List Str) (e : Str),
      rest.foldl (fun b s => b ++ sep ++ s) e = List.intercalate sep (e :: rest) := by
  intro rest
  induction rest with
  | nil => intro e; simp [List.intercalate]
  | cons a rest ih =>
    intro e
    rw [List.foldl_cons, ih (e ++ sep ++ a)]
    cases rest with
    | nil => simp [List.intercalate]
    | cons y l =>
      rw [intercalate_cons₂ sep (e ++ sep ++ a) y l, intercalate_cons₂ sep e a (y :: l),
        intercalate_cons₂ sep a y l]
      simp

/-- C10 (confirmed): the hand-rolled `stringJoin` produces the same byte
sequence as the standard-library join (`strings.Join`, modelled by
`stringsJoin`), so the doc-line joining used for markdown and the
code-line joining used for the raw code agree. -/
theorem stringJoin_eq_stringsJoin (elems : List Str) (sep : Str) :
    stringJoin elems sep = stringsJoin elems sep := by
  unfold stringJoin stringsJoin
  match elems with
  | [] => simp [List.intercalate]
  | [e] => simp [List.intercalate]
  | e :: a :: rest => exact foldl_sep_intercalate sep (a :: rest) e

/-- C5 (counterexample): for the non-runnable source path `"a.py"` the
per-segment raw joined code text `CodeForJs` is still set, and the
runnable-kind test accepts two suffixes (`.gop` and `.go`), not a single
distinguished kind. -/
theorem codeForJs_set_for_non_runnable :
    isGopFile (str "a.py") = false ∧
    isGopFile (str "a.go") = true ∧
    isGopFile (str "a.gop") = true ∧
    ∃ seg ∈ (parseAndRenderSegs (fun _ => []) (fun _ _ => [])
        (str "a.py") (str "x := 1")).1, seg.CodeForJs ≠ [] := by decide

/-- C5 (amended): the whole-file raw text returned for "run this" links
is retained exactly when the path ends in `.gop` or `.go` (two runnable
kinds) and is empty otherwise, while the per-segment joined code text
`CodeForJs` is set for every segment with code lines regardless of the
file kind (and empty when the segment has no code lines). -/
theorem raw_code_retention (renderDoc : List Str → Str)
    (renderCode : Str → Str → Str) (p c : Str) :
    ((parseAndRenderSegs renderDoc renderCode p c).2 =
      if isGopFile p then c else []) ∧
    (isGopFile p = (strEndsWith p (str ".gop") || strEndsWith p (str ".go"))) ∧
    (∀ seg ∈ (parseAndRenderSegs renderDoc renderCode p c).1,
      seg.CodeForJs =
        if seg.Code = [] then [] else stringsJoin seg.Code (str "\n")) := by
  refine ⟨rfl, by simp [isGopFile, goFileSuffixes], ?_⟩
  intro seg hm
  unfold parseAndRenderSegs at hm
  dsimp only at hm
  rw [List.mem_map] at hm
  obtain ⟨s, hs, rfl⟩ := hm
  have hjs : s.CodeForJs = [] := parseSegs_codeForJs c s hs
  by_cases hd : s.Docs = [] <;> by_cases hcd : s.Code = [] <;>
    simp [hd, hcd, hjs]

/-- Witness for `raw_code_retention` at a concrete runnable file. -/
theorem raw_code_retention_witness :
    ((parseAndRenderSegs (fun _ => []) (fun _ _ => [])
        (str "a.gop") (str "x := 1")).2 = str "x := 1") ∧
    ({ Code := [str "x := 1"], CodeForJs := str "x := 1" } : Seg).CodeForJs =
      (if ({ Code := [str "x := 1"], CodeForJs := str "x := 1" } : Seg).Code = []
       then []
       else stringsJoin
         ({ Code := [str "x := 1"], CodeForJs := str "x := 1" } : Seg).Code
         (str "\n")) := by
  constructor
  · exact (raw_code_retention (fun _ => []) (fun _ _ => [])
      (str "a.gop") (str "x := 1")).1
  · exact (raw_code_retention (fun _ => []) (fun _ _ => [])
      (str "a.gop") (str "x := 1")).2.2 _ (by decide)

/-- C8 (confirmed): once a first request has successfully built and
published a page, the cache holds it, and every subsequent request —
whatever its build would produce — returns the identical payload from
the cache without rebuilding. -/
theorem cache_idempotent (build build' : Except Str Str) (d : Str)
    (h : (handleExample build Option.none).1 = Except.ok d) :
    (handleExample build Option.none).2 = Option.some d ∧
    handleExample build' (Option.some d) = (Except.ok d, Option.some d) := by
  cases build with
  | ok x =>
    have hx : x = d := by simpa [handleExample] using h
    subst hx
    exact ⟨rfl, rfl⟩
  | error e => simp [handleExample] at h

/-- Witness for `cache_idempotent`: the second request's build parameter
is a failing build, yet the cached payload is returned untouched. -/
theorem cache_idempotent_witness :
    (handleExample (Except.ok (str "page")) Option.none).2 =
      Option.some (str "page") ∧
    handleExample (Except.error (str "boom")) (Option.some (str "page")) =
      (Except.ok (str "page"), Option.some (str "page")) :=
  cache_idempotent (Except.ok (str "page")) (Except.error (str "boom"))
    (str "page") rfl

/-- C9 (confirmed): a failed build publishes nothing — the request fails
and the cache entry stays unbuilt — so a later request retries the build
and can succeed; no partial artifact is ever stored. -/
theorem failed_build_not_cached (e d : Str) :
    handleExample (Except.error e) Option.none =
      (Except.error e, Option.none) ∧
    handleExample (Except.ok d) Option.none =
      (Except.ok d, Option.some d) :=
  ⟨rfl, rfl⟩

theorem foldl_renderIndexStep (names : List Str) :
    ∀ (prev : exampleIndex) (rest : List exampleIndex), names ≠ [] →
      names.foldl renderIndexStep (prev :: rest) =
        (chainEntries (rest.length + 1) names).reverse ++
          ({ prev with Next := Option.some (rest.length + 1) } :: rest) := by
  induction names with
  | nil => intro _ _ h; exact absurd rfl h
  | cons name names ih =>
    intro prev rest _
    rw [List.foldl_cons]
    show names.foldl renderIndexStep
        (mkExampleIndex name (Option.some rest.length) ::
          { prev with Next := Option.some (rest.length + 1) } :: rest) = _
    cases names with
    | nil =>
      simp [chainEntries, entryAt, mkExampleIndex]
    | cons n2 ns =>
      rw [ih (mkExampleIndex name (Option.some rest.length))
        ({ prev with Next := Option.some (rest.length + 1) } :: rest) (by simp)]
      simp [chainEntries, entryAt, mkExampleIndex, List.append_assoc]

theorem renderIndex_eq_chainEntries (names : List Str) :
    renderIndex names = chainEntries 0 names := by
  cases names with
  | nil => rfl
  | cons name names =>
    unfold renderIndex
    rw [List.foldl_cons]
    show (names.foldl renderIndexStep [mkExampleIndex name Option.none]).reverse = _
    cases names with
    | nil => simp [chainEntries, entryAt, mkExampleIndex]
    | cons n2 ns =>
      rw [foldl_renderIndexStep (n2 :: ns) (mkExampleIndex name Option.none) [] (by simp)]
      simp [chainEntries, entryAt, mkExampleIndex]

theorem chainEntries_length (names : List Str) :
    ∀ k, (chainEntries k names).length = names.length := by
  induction names with
  | nil => intro k; rfl
  | cons name names ih =>
    intro k
    cases names with
    | nil => rfl
    | cons n2 ns => simp [chainEntries, ih (k + 1)]

theorem chainEntries_getElem (names : List Str) :
    ∀ (k i : Nat) (hc : i < (chainEntries k names).length) (h' : i < names.length),
      (chainEntries k names)[i] =
        entryAt (k + i) names[i]
          (if i + 1 = names.length then Option.none else Option.some (k + i + 1)) := by
  induction names with
  | nil => intro k i hc h'; exact absurd h' (by simp)
  | cons name names ih =>
    intro k i hc h'
    cases names with
    | nil =>
      have hi : i = 0 := Nat.lt_one_iff.mp h'
      subst hi
      simp [chainEntries]
    | cons n2 ns =>
      cases i with
      | zero =>
        have hne : ¬(0 + 1 = (name :: n2 :: ns).length) := by simp
        rw [if_neg hne]
        simp [chainEntries]
      | succ j =>
        have hj' : j < (n2 :: ns).length := by simpa using h'
        have hj : j < (chainEntries (k + 1) (n2 :: ns)).length := by
          rw [chainEntries_length]; exact hj'
        have hstep : (chainEntries k (name :: n2 :: ns))[j + 1] =
            (chainEntries (k + 1) (n2 :: ns))[j] := by
          simp [chainEntries]
        rw [hstep, ih (k + 1) j hj hj']
        have harith : k + 1 + j = k + (j + 1) := by omega
        have hcond : (j + 1 = (n2 :: ns).length) ↔
            (j + 1 + 1 = (name :: n2 :: ns).length) := by simp
        have hget : (n2 :: ns)[j] = (name :: n2 :: ns)[j + 1] := by simp
        rw [harith, hget]
        by_cases hc2 : j + 1 = (n2 :: ns).length
        · rw [if_pos hc2, if_pos (hcond.mp hc2)]
        · rw [if_neg hc2, if_neg (fun hx => hc2 (hcond.mpr hx))]

theorem entryAt_Prev (k : Nat) (name : Str) (nxt : Option Nat) :
    (entryAt k name nxt).Prev =
      if k = 0 then Option.none else Option.some (k - 1) := rfl

theorem entryAt_Next (k : Nat) (name : Str) (nxt : Option Nat) :
    (entryAt k name nxt).Next = nxt := rfl

theorem entryAt_Path (k : Nat) (name : Str) (nxt : Option Nat) :
    (entryAt k name nxt).Path = str "/" ++ strToLower (name.drop 3) := rfl

theorem entryAt_Title (k : Nat) (name : Str) (nxt : Option Nat) :
    (entryAt k name nxt).Title = replaceCharAll (name.drop 3) '-' ' ' := rfl

theorem renderIndex_length (names : List Str) :
    (renderIndex names).length = names.length := by
  rw [renderIndex_eq_chainEntries, chainEntries_length]

theorem renderIndex_getElem (names : List Str) (i : Nat)
    (h : i < (renderIndex names).length) (h' : i < names.length) :
    (renderIndex names)[i] =
      entryAt i names[i]
        (if i + 1 = names.length then Option.none else Option.some (i + 1)) := by
  have hc : i < (chainEntries 0 names).length := by
    rw [chainEntries_length]; exact h'
  calc (renderIndex names)[i]
      = (chainEntries 0 names)[i] := by
        congr 1
        exact renderIndex_eq_chainEntries names
    _ = entryAt (0 + i) names[i]
          (if i + 1 = names.length then Option.none else Option.some (0 + i + 1)) :=
        chainEntries_getElem names 0 i hc h'
    _ = entryAt i names[i]
          (if i + 1 = names.length then Option.none else Option.some (i + 1)) := by
        rw [Nat.zero_add]

/-- C7 (confirmed): the catalog `renderIndex` builds over `N` names has
`N` descriptors, the first has no predecessor, the last no successor, and
every interior descriptor points back at its predecessor and forward at
its successor in catalog order. -/
theorem catalog_linkage (names : List Str) :
    (renderIndex names).length = names.length ∧
    ∀ (i : Nat) (h : i < (renderIndex names).length),
      ((renderIndex names)[i].Prev =
        if i = 0 then Option.none else Option.some (i - 1)) ∧
      ((renderIndex names)[i].Next =
        if i + 1 = (renderIndex names).length then Option.none
        else Option.some (i + 1)) := by
  refine ⟨renderIndex_length names, ?_⟩
  intro i h
  have h' : i < names.length := by rwa [renderIndex_length] at h
  rw [renderIndex_getElem names i h h', entryAt_Prev, entryAt_Next, renderIndex_length]
  exact ⟨rfl, rfl⟩

/-- Witness for `catalog_linkage` on a three-entry catalog. -/
theorem catalog_linkage_witness :
    (renderIndex [str "01-A", str "02-B", str "03-C"]).length = 3 ∧
    ((renderIndex [str "01-A", str "02-B", str "03-C"]).get ⟨1, by decide⟩).Prev =
      Option.some 0 ∧
    ((renderIndex [str "01-A", str "02-B", str "03-C"]).get ⟨1, by decide⟩).Next =
      Option.some 2 := by
  have h := catalog_linkage [str "01-A", str "02-B", str "03-C"]
  have h2 := h.2 1 (by decide)
  exact ⟨h.1, h2.1, h2.2⟩

/-- C6 (counterexample): the directory name `"01-Hello-World"` yields URL
path `"/hello-world"` — the separator is kept in the path, not replaced
by a space as the claimed `"/hello world"` would require. -/
theorem url_path_counterexample :
    (renderIndex [str "01-Hello-World"]).map exampleIndex.Path =
      [str "/hello-world"] ∧
    str "/hello-world" ≠ str "/hello world" := by decide

/-- C6 (amended): for a catalog name `NN-title`, the derived URL path is
`"/"` followed by the lowercase of the title with separators kept (not
replaced by spaces), while the display title replaces separators by
spaces; in particular `"05-Channels"` yields path `/channels` and title
`Channels`. -/
theorem url_path_and_title (names : List Str) (i : Nat)
    (h : i < (renderIndex names).length) (h' : i < names.length) :
    ((renderIndex names)[i].Path = str "/" ++ strToLower (names[i].drop 3)) ∧
    ((renderIndex names)[i].Title = replaceCharAll (names[i].drop 3) '-' ' ') ∧
    (renderIndex [str "05-Channels"]).map exampleIndex.Path = [str "/channels"] ∧
    (renderIndex [str "05-Channels"]).map exampleIndex.Title = [str "Channels"] := by
  rw [renderIndex_getElem names i h h', entryAt_Path, entryAt_Title]
  exact ⟨rfl, rfl, by decide, by decide⟩

/-- Witness for `url_path_and_title` on a concrete two-entry catalog. -/
theorem url_path_and_title_witness :
    ((renderIndex [str "01-Hello", str "02-World"]).get ⟨1, by decide⟩).Path =
      str "/world" ∧
    ((renderIndex [str "01-Hello", str "02-World"]).get ⟨1, by decide⟩).Title =
      str "World" := by
  have h := url_path_and_title [str "01-Hello", str "02-World"] 1 (by decide) (by decide)
  exact ⟨h.1, h.2.1⟩
